import Mathlib

/-!
# Verification of the jeprof-rs heap_v2 profile parser

Shallow embedding of `src/lib.rs` of the `jeprof-rs` repository: a nom-based
parser for jemalloc's textual `heap_v2` heap-profile dump format.

The embedding models nom's complete-mode combinators over `List Char` input.
A parser is a function from the remaining input to `Option (rest, value)`;
`none` stands for nom's recoverable `Err::Error` (all parsers in this code
are built from complete-mode primitives without `cut`, so every failure is
recoverable and the distinction between `Error` and `Failure` never arises).

nom's `many0` / `many1` / `many_m_n` loops are modelled with explicit fuel.
Each loop iteration requires the inner parser to consume input (exactly nom's
infinite-loop check, which turns a non-consuming success into an error), so
with initial fuel `input.length + 1` the fuel can never run out before the
loop stops: the fuelled functions compute exactly nom's semantics.
-/

abbrev ParserFn (α : Type) := List Char → Option (List Char × α)

/-- nom `tag`: match a literal character sequence, returning the consumed tag. -/
def ptag : List Char → ParserFn (List Char)
  | [], input => some (input, [])
  | _ :: _, [] => none
  | t :: ts, c :: cs =>
      if c = t then
        match ptag ts cs with
        | some (rest, out) => some (rest, t :: out)
        | none => none
      else none

/-- nom `char`: match one specific character. -/
def pchar (c : Char) : ParserFn Char := fun input =>
  match input with
  | [] => none
  | c2 :: cs => if c2 = c then some (cs, c) else none

/-- nom `one_of`: match one character drawn from a given list. -/
def one_of (s : List Char) : ParserFn Char := fun input =>
  match input with
  | [] => none
  | c :: cs => if c ∈ s then some (cs, c) else none

/-- nom `anychar`: match any single character. -/
def anychar : ParserFn Char := fun input =>
  match input with
  | [] => none
  | c :: cs => some (cs, c)

/-- nom `take_while`: longest (possibly empty) run satisfying the predicate;
never fails. -/
def take_while (pred : Char → Bool) : ParserFn (List Char) := fun input =>
  some (input.dropWhile pred, input.takeWhile pred)

/-- Common core of nom's `xxx1` character classes: longest nonempty run. -/
def take_while1 (pred : Char → Bool) : ParserFn (List Char) := fun input =>
  match input.takeWhile pred with
  | [] => none
  | ds => some (input.dropWhile pred, ds)

/-- nom `digit1`: one or more ASCII decimal digits. -/
def digit1 : ParserFn (List Char) := take_while1 Char.isDigit

/-- nom `space1`: one or more of space / tab. -/
def space1 : ParserFn (List Char) := take_while1 (fun c => c = ' ' || c = '\t')

/-- nom `alt` with two alternatives: first parser, else the second. -/
def alt2 (p q : ParserFn α) : ParserFn α := fun input =>
  match p input with
  | none => q input
  | some r => some r

/-- nom (complete) `line_ending`: `"\n"` or `"\r\n"`. -/
def line_ending : ParserFn (List Char) :=
  alt2 (ptag ['\n']) (ptag ['\r', '\n'])

/-- Character that is neither LF nor CR (the run consumed by `not_line_ending`). -/
def notEol (c : Char) : Bool := c ≠ '\n' && c ≠ '\r'

/-- nom (complete) `not_line_ending`: everything up to (not including) the line
terminator; a bare `'\r'` not followed by `'\n'` is an error. -/
def not_line_ending : ParserFn (List Char) := fun input =>
  let pre := input.takeWhile notEol
  let rest := input.dropWhile notEol
  match rest with
  | [] => some (rest, pre)
  | c :: cs =>
      if c = '\r' then
        match cs with
        | [] => none
        | c2 :: _ => if c2 = '\n' then some (rest, pre) else none
      else some (rest, pre)

/-- nom `opt`: turn failure into a `none` result without consuming. -/
def popt (p : ParserFn α) : ParserFn (Option α) := fun input =>
  match p input with
  | none => some (input, none)
  | some (rest, a) => some (rest, some a)

/-- nom `preceded`: run both parsers, keep the second result. -/
def preceded (p : ParserFn α) (q : ParserFn β) : ParserFn β := fun input =>
  match p input with
  | none => none
  | some (rest, _) => q rest

/-- nom `terminated`: run both parsers, keep the first result. -/
def terminated (p : ParserFn α) (q : ParserFn β) : ParserFn α := fun input =>
  match p input with
  | none => none
  | some (rest, a) =>
      match q rest with
      | none => none
      | some (rest2, _) => some (rest2, a)

/-- nom `map_res`: apply a fallible conversion to the parsed value. -/
def map_res (p : ParserFn α) (f : α → Option β) : ParserFn β := fun input =>
  match p input with
  | none => none
  | some (rest, a) =>
      match f a with
      | none => none
      | some b => some (rest, b)

/-- nom `recognize`: run the parser and return the consumed slice instead of
its value. All parsers here consume from the front, so the consumed slice is
the input minus the returned rest. -/
def recognize (p : ParserFn α) : ParserFn (List Char) := fun input =>
  match p input with
  | none => none
  | some (rest, _) => some (rest, input.take (input.length - rest.length))

/-- Fuelled loop shared by `many0` and `many1`: repeat while the inner parser
succeeds, requiring strict consumption at every iteration (nom's infinite-loop
check: a success that consumes nothing is an error). -/
def many0Aux (p : ParserFn α) : Nat → ParserFn (List α)
  | 0, _ => none
  | fuel + 1, input =>
      match p input with
      | none => some (input, [])
      | some (rest, a) =>
          if rest.length < input.length then
            match many0Aux p fuel rest with
            | some (rest2, as) => some (rest2, a :: as)
            | none => none
          else none

/-- nom `many0`. -/
def many0 (p : ParserFn α) : ParserFn (List α) := fun input =>
  many0Aux p (input.length + 1) input

/-- nom `many1`: the leading application has no consumption check (exactly as
in nom); the following loop is the `many0` loop. -/
def many1 (p : ParserFn α) : ParserFn (List α) := fun input =>
  match p input with
  | none => none
  | some (rest, a) =>
      match many0Aux p (rest.length + 1) rest with
      | some (rest2, as) => some (rest2, a :: as)
      | none => none

/-- nom `many_m_n` with `min = max = n`: exactly `n` repetitions, each
required to consume input. -/
def many_m_n_exact (p : ParserFn α) : Nat → ParserFn (List α)
  | 0, input => some (input, [])
  | n + 1, input =>
      match p input with
      | none => none
      | some (rest, a) =>
          if rest.length < input.length then
            match many_m_n_exact p n rest with
            | some (rest2, as) => some (rest2, a :: as)
            | none => none
          else none

/-! ## Data model (`Profile`, `Stack`, `Thread`, `MappedLibrary`) -/

/-- One statistics line (`Thread` in `lib.rs`). Strings are `List Char` views
of the input, as in the borrowing Rust code. The field name `insuse_space`
reproduces the source's spelling. -/
structure Thread where
  id : List Char
  inuse_count : Nat
  insuse_space : Nat
  alloc_count : Nat
  alloc_space : Nat
deriving Repr, DecidableEq

/-- One call chain (`Stack` in `lib.rs`). Addresses are `i64` in the source;
modelled as `Int` (the parser only ever produces values in `[0, 2^63)`). -/
structure Stack where
  addrs : List Int
  threads : List Thread
deriving Repr, DecidableEq

/-- One memory-map row (`MappedLibrary` in `lib.rs`). -/
structure MappedLibrary where
  first : Int
  last : Int
  path : List Char
deriving Repr, DecidableEq

/-- The parsed document (`Profile` in `lib.rs`). `sampling_rate` is `u64` in
the source; modelled as `Nat` with the `< 2^64` overflow check performed at
the numeric-conversion sites, as `str::parse::<u64>` does. -/
structure Profile where
  sampling_rate : Nat
  totals : List Thread
  «stacks» : List Stack
  mapped_libraries : List MappedLibrary
deriving Repr, DecidableEq

/-! ## Numeric primitives -/

def hexDigitChars : List Char := "0123456789abcdefABCDEF".toList

/-- Value of one hexadecimal digit (junk value 0 outside the class). -/
def hexCharValD (c : Char) : Nat :=
  if '0' ≤ c ∧ c ≤ '9' then c.toNat - '0'.toNat
  else if 'a' ≤ c ∧ c ≤ 'f' then c.toNat - 'a'.toNat + 10
  else if 'A' ≤ c ∧ c ≤ 'F' then c.toNat - 'A'.toNat + 10
  else 0

/-- Base-16 value of a digit string (most significant first). -/
def hexNatValue (s : List Char) : Nat :=
  s.foldl (fun a c => 16 * a + hexCharValD c) 0

def isHexDigitChar (c : Char) : Bool := decide (c ∈ hexDigitChars)

/-- `i64::from_str_radix(s, 16)` as used at the single call site in
`hexadecimal_value`: the argument there is a nonempty string of hexadecimal
digits (underscores already stripped), so the sign handling of the Rust
function is never exercised; conversion fails exactly when the string is
empty, contains a non-digit, or its value exceeds `i64::MAX = 2^63 - 1`. -/
def i64FromStrRadix16 (s : List Char) : Option Int :=
  if s = [] then none
  else if s.all isHexDigitChar then
    if hexNatValue s < 2 ^ 63 then some (Int.ofNat (hexNatValue s)) else none
  else none

/-- Base-10 value of a digit string (most significant first). -/
def decNatValue (s : List Char) : Nat :=
  s.foldl (fun a c => 10 * a + (c.toNat - '0'.toNat)) 0

/-- `str::parse::<u64>` applied to the output of `digit1` (a nonempty run of
ASCII digits): fails exactly on overflow of `u64`. -/
def u64OfDigits (s : List Char) : Option Nat :=
  if decNatValue s < 2 ^ 64 then some (decNatValue s) else none

/-! ## The parsers of `lib.rs` -/

/-- `hexadecimal_value` from `lib.rs`:
optional `0x`/`0X` tag, then `recognize(many1(terminated(one_of(hex digits),
many0(char '_'))))`, converted with `i64::from_str_radix` after replacing
`"_"` by `""`. -/
def hexadecimal_value : ParserFn Int :=
  map_res
    (preceded (popt (alt2 (ptag "0x".toList) (ptag "0X".toList)))
      (recognize (many1 (terminated (one_of hexDigitChars) (many0 (pchar '_'))))))
    (fun out => i64FromStrRadix16 (out.filter (fun c => c ≠ '_')))

/-- `map_res(digit1, |s| s.parse::<u64>())`, the shape used for every decimal
field in the source. -/
def parse_u64 : ParserFn Nat := map_res digit1 u64OfDigits

/-- `parse_header` from `lib.rs`: tag `heap_v2/` then the decimal sampling
rate. -/
def parse_header : ParserFn Nat := fun input => do
  let (input, _) ← ptag "heap_v2/".toList input
  parse_u64 input

/-- Rust `char::is_alphanumeric` as used by `parse_thread`. The source
predicate is Unicode-aware; every input this grammar can meet is ASCII, where
it coincides with `Char.isAlphanum` (letters and decimal digits). -/
def rustIsAlphanumeric (c : Char) : Bool := c.isAlphanum

/-- `parse_thread` from `lib.rs`: tag `t`, then `take_while` over
alphanumeric-or-`*` (note: zero or more), then the four bracketed decimal
fields. -/
def parse_thread : ParserFn Thread := fun input => do
  let (input, _) ← ptag "t".toList input
  let (input, id) ← take_while (fun c => rustIsAlphanumeric c || c = '*') input
  let (input, _) ← ptag ": ".toList input
  let (input, inuse_count) ← parse_u64 input
  let (input, _) ← ptag ": ".toList input
  let (input, insuse_space) ← parse_u64 input
  let (input, _) ← ptag " [".toList input
  let (input, alloc_count) ← parse_u64 input
  let (input, _) ← ptag ": ".toList input
  let (input, alloc_space) ← parse_u64 input
  let (input, _) ← ptag "]".toList input
  some (input, { id, inuse_count, insuse_space, alloc_count, alloc_space })

/-- `parse_stack_addrs` from `lib.rs`: tag `@` then one or more
space-preceded hex addresses. -/
def parse_stack_addrs : ParserFn (List Int) := fun input => do
  let (input, _) ← ptag "@".toList input
  many1 (preceded space1 hexadecimal_value) input

/-- `parse_stack` from `lib.rs`: an address line then one or more indented
thread lines, each line-terminated. -/
def parse_stack : ParserFn Stack := fun input => do
  let (input, addrs) ← terminated parse_stack_addrs line_ending input
  let (input, threads) ← many1 (terminated (preceded space1 parse_thread) line_ending) input
  some (input, { addrs, threads })

/-- `parse_mapped_library` from `lib.rs`. Fields in order: two hex addresses
joined by `-`; four arbitrary characters (`many_m_n(4, 4, anychar)`); eight
hex digits; decimal `major:minor`; decimal inode; then the rest of the line
as the path. Every field after the addresses is preceded by `space1`. -/
def parse_mapped_library : ParserFn MappedLibrary := fun input => do
  let (input, first) ← hexadecimal_value input
  let (input, _) ← ptag "-".toList input
  let (input, last) ← hexadecimal_value input
  let (input, _) ← preceded space1 (many_m_n_exact anychar 4) input
  let (input, _) ← preceded space1 (many_m_n_exact (one_of hexDigitChars) 8) input
  let (input, _) ← preceded space1 digit1 input
  let (input, _) ← ptag ":".toList input
  let (input, _) ← digit1 input
  let (input, _) ← preceded space1 digit1 input
  let (input, path) ← preceded space1 not_line_ending input
  some (input, { first, last, path })

def mappedLibrariesHeaderTag : List Char := "MAPPED_LIBRARIES:\n".toList

/-- `parse_profile` from `lib.rs`: header, line break, totals block, one or
more stacks, blank-line tolerance, the `MAPPED_LIBRARIES:` marker, then zero
or more line-terminated map rows; rows with an empty path are filtered out. -/
def parse_profile : ParserFn Profile := fun input => do
  let (input, sampling_rate) ← parse_header input
  let (input, _) ← line_ending input
  let (input, threads) ← many1 (terminated (preceded space1 parse_thread) line_ending) input
  let (input, «stacks») ← many1 parse_stack input
  let (input, _) ← many0 line_ending input
  let (input, _) ← ptag mappedLibrariesHeaderTag input
  let (input, mapped_libraries) ← many0 (terminated parse_mapped_library line_ending) input
  let mapped_libraries := mapped_libraries.filter (fun lib => !lib.path.isEmpty)
  some (input, { sampling_rate, totals := threads, «stacks», mapped_libraries })

/-- The two outward error cases of `Profile::parse`: the magic-check message
("Only HEAP V2 profiles are supported") and the collapsed parse failure
("failed to parse heap_v2 profile"). -/
inductive ProfileError where
  | unsupportedFormat
  | parseFailure
deriving Repr, DecidableEq

/-- `str::starts_with` for a literal pattern. -/
def listBeginsWith : List Char → List Char → Bool
  | [], _ => true
  | _ :: _, [] => false
  | p :: ps, c :: cs => c = p && listBeginsWith ps cs

/-- `Profile::parse` from `lib.rs`: magic check, then `parse_profile`,
discarding any unconsumed remainder. -/
def Profile.parse (profile : List Char) : Except ProfileError Profile :=
  if listBeginsWith "heap_v2".toList profile then
    match parse_profile profile with
    | some (_, p) => Except.ok p
    | none => Except.error ProfileError.parseFailure
  else Except.error ProfileError.unsupportedFormat

/-- A parser only ever hands back a suffix of its input (it consumes from the
front). Stated as a predicate so it can be proved once per combinator. -/
def Consumes (p : ParserFn α) : Prop :=
  ∀ i r a, p i = some (r, a) → r <:+ i

/-! ## Concrete documents and expected results used by the claims -/

/-- The end-to-end document of the spec's testable properties. -/
def c2doc : List Char :=
  ("heap_v2/131072\n  t*: 4385: 810327 [0: 0]\n@ 0x004 0x003 0x002 0x001\n  t*: 1: 224 [0: 0]\n  t5: 1: 224 [0: 0]\n@ 0x001 0x002 0x003 0x004\n  t*: 1: 224 [0: 0]\n  t5: 1: 224 [0: 0]\nMAPPED_LIBRARIES:\n").toList

/-- A document whose mapped-library section holds one well-formed row followed
by a line that fails the row sub-grammar. -/
def d1doc : List Char :=
  ("heap_v2/1\n  t*: 0: 0 [0: 0]\n@ 0x1\n  t*: 0: 0 [0: 0]\nMAPPED_LIBRARIES:\n00000001-00000004 r--p 00000000 103:02 5000 /x\ngarbage\n").toList

def d1thread : Thread :=
  { id := ['*'], inuse_count := 0, insuse_space := 0, alloc_count := 0, alloc_space := 0 }

/-- The profile the parser produces for `d1doc`: only the well-formed part of
the mapped-library section. -/
def d1prof : Profile :=
  { sampling_rate := 1, totals := [d1thread],
    «stacks» := [{ addrs := [1], threads := [d1thread] }],
    mapped_libraries := [{ first := 1, last := 4, path := ['/', 'x'] }] }

def d1rest : List Char := ("garbage\n").toList

/-- A thread line whose ID position is immediately followed by `": "`. -/
def c4line : List Char := ("t: 5000: 6000 [7000: 8000]").toList

/-- A memory-map row up to (and including) the space before the permission
field. -/
def c5permPre : List Char := ("00000001-00000004 ").toList

/-- A memory-map row from the space after the permission field onward. -/
def c5permPost : List Char := (" 00000000 103:02 5000 /x").toList

/-- A memory-map row whose 8-character offset field holds a non-hex digit. -/
def c5badOffsetLine : List Char :=
  ("00000001-00000004 r--p 0000000g 103:02 5000 /x").toList

/-- A document whose single mapped-library row has a path with an embedded
space. -/
def c6doc : List Char :=
  ("heap_v2/1\n  t*: 0: 0 [0: 0]\n@ 0x1\n  t*: 0: 0 [0: 0]\nMAPPED_LIBRARIES:\n00000001-00000004 r--p 00000000 103:02 5000 /usr/lib/with space.so\n").toList

def c6prof : Profile :=
  { sampling_rate := 1, totals := [d1thread],
    «stacks» := [{ addrs := [1], threads := [d1thread] }],
    mapped_libraries := [{ first := 1, last := 4, path := ("/usr/lib/with space.so").toList }] }

/-- One memory-map row with a spaced path, no line terminator. -/
def c6line : List Char :=
  ("00000001-00000004 r--p 00000000 103:02 5000 /usr/lib/with space.so").toList

/-- Decimal digit character, `0`-`9`. -/
def decDigitChar (d : Nat) : Char := Char.ofNat (48 + d)

/-- Most-significant-first decimal digits of `n`, with explicit fuel. -/
def natToDigitsAux : Nat → Nat → List Char
  | 0, _ => []
  | fuel + 1, n => if n = 0 then [] else natToDigitsAux fuel (n / 10) ++ [decDigitChar (n % 10)]

/-- Decimal representation of `n` (`"0"` for zero). -/
def natToDigits (n : Nat) : List Char :=
  if n = 0 then ['0'] else natToDigitsAux (n + 1) n

/-- Everything of the minimal document after the sampling rate. -/
def c7tail : List Char :=
  ("\n  t*: 0: 0 [0: 0]\n@ 0x1\n  t*: 0: 0 [0: 0]\nMAPPED_LIBRARIES:\n").toList

/-- A minimal well-formed document carrying sampling rate `R`. -/
def c7doc (R : Nat) : List Char := ("heap_v2/").toList ++ (natToDigits R ++ c7tail)

/-- The profile the minimal document parses to. -/
def c7prof (R : Nat) : Profile :=
  { sampling_rate := R, totals := [d1thread],
    «stacks» := [{ addrs := [1], threads := [d1thread] }],
    mapped_libraries := [] }

/-- A memory-map line that ends immediately after the inode field, as an
anonymous mapping with no trailing spaces does. -/
def c10anonLine : List Char := ("00000001-00000004 r--p 00000000 103:02 5000").toList

/-- A document whose mapped-library section holds one row with a path and then
an anonymous-mapping row without a path field. -/
def d10doc : List Char :=
  ("heap_v2/1\n  t*: 0: 0 [0: 0]\n@ 0x1\n  t*: 0: 0 [0: 0]\nMAPPED_LIBRARIES:\n00000001-00000004 r--p 00000000 103:02 5000 /x\n00000005-00000009 rw-p 00000000 103:02 6000\n").toList

def d10prof : Profile :=
  { sampling_rate := 1, totals := [d1thread],
    «stacks» := [{ addrs := [1], threads := [d1thread] }],
    mapped_libraries := [{ first := 1, last := 4, path := ['/', 'x'] }] }

/-! ## General lemmas about the combinators -/

theorem bind_some_decomp {α β : Type} {o : Option α} {f : α → Option β} {b : β}
    (h : (o >>= f) = some b) : ∃ a, o = some a ∧ f a = some b :=
  Option.bind_eq_some.mp h

theorem bindSome {α β : Type} (a : α) (f : α → Option β) : (some a >>= f) = f a := rfl

theorem tw_value {pred : Char → Bool} {i r out : List Char}
    (h : take_while pred i = some (r, out)) : out = i.takeWhile pred := by
  simp only [take_while] at h
  exact (Prod.mk.injEq _ _ _ _ ▸ (Option.some.injEq _ _ ▸ h)).2.symm

theorem take_while1_spec {pred : Char → Bool} {i r out : List Char}
    (h : take_while1 pred i = some (r, out)) :
    out = i.takeWhile pred ∧ r = i.dropWhile pred ∧ out ≠ [] := by
  simp only [take_while1] at h
  cases htw : i.takeWhile pred with
  | nil => rw [htw] at h; exact absurd h (by simp)
  | cons x xs =>
      rw [htw] at h
      obtain ⟨h1, h2⟩ := Prod.mk.injEq _ _ _ _ ▸ Option.some.injEq _ _ ▸ h
      exact ⟨h2.symm, h1.symm, h2 ▸ (by simp)⟩


set_option maxRecDepth 100000

/-! ## C2: end-to-end parse of the spec's example document -/

/-- C2: parsing the exact example document succeeds and yields
`sampling_rate = 131072`, first total with id `"*"` and `inuse_count = 4385`,
exactly 2 stacks, and first-stack addresses `[4, 3, 2, 1]`. -/
theorem c2_end_to_end :
    (Profile.parse c2doc).toOption.map
      (fun p => (p.sampling_rate, p.totals.head?.map Thread.id,
        p.totals.head?.map Thread.inuse_count, p.«stacks».length,
        p.«stacks».head?.map Stack.addrs))
    = some (131072, some ['*'], some 4385, 2, some [4, 3, 2, 1]) := by rfl

/-! ## C4: the thread-record ID token -/

/-- C4 counterexample: on `"t: 5000: 6000 [7000: 8000]"`, where zero
alphanumeric-or-star characters follow the leading `t`, the thread-record
parse succeeds (the claim says it must fail). -/
theorem c4_counterexample : (parse_thread c4line).isSome = true := by rfl

/-- C4 (amended): the ID token is zero or more characters, each alphanumeric
or `*`; with zero such characters the parser succeeds and produces a Thread
with an empty id, as on `"t: 5000: 6000 [7000: 8000]"`. -/
theorem c4_zero_or_more_id :
    (∀ input rest th, parse_thread input = some (rest, th) →
      ∀ c ∈ th.id, (rustIsAlphanumeric c || c = '*') = true)
    ∧ parse_thread c4line =
        some ([], { id := [], inuse_count := 5000, insuse_space := 6000,
                    alloc_count := 7000, alloc_space := 8000 }) := by
  constructor
  · intro input rest th h
    simp only [parse_thread] at h
    obtain ⟨⟨i1, t1⟩, h1, h⟩ := bind_some_decomp h
    obtain ⟨⟨i2, idv⟩, h2, h⟩ := bind_some_decomp h
    obtain ⟨⟨i3, t3⟩, h3, h⟩ := bind_some_decomp h
    obtain ⟨⟨i4, v4⟩, h4, h⟩ := bind_some_decomp h
    obtain ⟨⟨i5, t5⟩, h5, h⟩ := bind_some_decomp h
    obtain ⟨⟨i6, v6⟩, h6, h⟩ := bind_some_decomp h
    obtain ⟨⟨i7, t7⟩, h7, h⟩ := bind_some_decomp h
    obtain ⟨⟨i8, v8⟩, h8, h⟩ := bind_some_decomp h
    obtain ⟨⟨i9, t9⟩, h9, h⟩ := bind_some_decomp h
    obtain ⟨⟨i10, v10⟩, h10, h⟩ := bind_some_decomp h
    obtain ⟨⟨i11, t11⟩, h11, h⟩ := bind_some_decomp h
    obtain ⟨rfl, rfl⟩ := Prod.mk.injEq _ _ _ _ ▸ Option.some.injEq _ _ ▸ h
    intro c hc
    have hid := tw_value h2
    subst hid
    have hmem := List.mem_takeWhile_imp hc
    exact hmem
  · rfl

/-- C4 witness: the general ID-character property instantiated at the
well-formed line `"t123: 5000: 6000 [7000: 8000]"`. -/
theorem c4_zero_or_more_id_witness :
    ∀ c ∈ (['1', '2', '3'] : List Char), (rustIsAlphanumeric c || c = '*') = true :=
  c4_zero_or_more_id.1 (("t123: 5000: 6000 [7000: 8000]").toList) []
    { id := ['1', '2', '3'], inuse_count := 5000, insuse_space := 6000,
      alloc_count := 7000, alloc_space := 8000 } (by rfl)

/-! ## C9: shape of the token consumed by the hex primitive -/

/-- C9 counterexample: on `"1_"` the primitive consumes the whole token,
which ends in `'_'` (the claim says the consumed token never ends in `'_'`):
the recognized slice is exactly `"1_"` and the decoded value is 1 with empty
rest. -/
theorem c9_counterexample :
    recognize (many1 (terminated (one_of hexDigitChars) (many0 (pchar '_'))))
        (("1_").toList) = some ([], ("1_").toList)
    ∧ hexadecimal_value (("1_").toList) = some ([], 1) := by
  exact ⟨rfl, rfl⟩

/-- C9 (amended): each hex digit may be followed by zero or more underscore
separators, so separators may repeat and may trail the final digit: a digit
followed by any number of underscores is consumed entirely, and repeated
separators between digits are accepted. -/
theorem c9_trailing_underscores :
    (∀ n : Nat, hexadecimal_value ('1' :: List.replicate n '_') = some ([], 1))
    ∧ hexadecimal_value (("1__2f").toList) = some ([], 303) := by
  constructor
  · intro n
    have hrep : ∀ fuel m, m < fuel →
        many0Aux (pchar '_') fuel (List.replicate m '_') = some ([], List.replicate m '_') := by
      intro fuel
      induction fuel with
      | zero => intro m hm; omega
      | succ f ih =>
          intro m hm
          cases m with
          | zero => rfl
          | succ k =>
              have hp : pchar '_' (List.replicate (k + 1) '_') = some (List.replicate k '_', '_') := by
                simp [List.replicate, pchar]
              simp only [many0Aux, hp, List.length_replicate, Nat.lt_succ_self, if_pos,
                ih k (by omega)]
              simp [List.replicate_succ]
    have hm0 : many0 (pchar '_') (List.replicate n '_') = some ([], List.replicate n '_') := by
      simp only [many0, List.length_replicate]
      exact hrep (n + 1) n (Nat.lt_succ_self n)
    have h1 : one_of hexDigitChars ('1' :: List.replicate n '_')
        = some (List.replicate n '_', '1') := by
      norm_num [one_of, hexDigitChars]
    have hterm : terminated (one_of hexDigitChars) (many0 (pchar '_'))
        ('1' :: List.replicate n '_') = some ([], '1') := by
      simp only [terminated, h1, hm0]
    have hnil : terminated (one_of hexDigitChars) (many0 (pchar '_')) ([] : List Char) = none := rfl
    have hmany1 : many1 (terminated (one_of hexDigitChars) (many0 (pchar '_')))
        ('1' :: List.replicate n '_') = some ([], ['1']) := by
      simp only [many1, hterm, many0Aux, hnil]
    have hrec : recognize (many1 (terminated (one_of hexDigitChars) (many0 (pchar '_'))))
        ('1' :: List.replicate n '_') = some ([], '1' :: List.replicate n '_') := by
      simp [recognize, hmany1, List.take_length]
    have hpre : popt (alt2 (ptag (("0x").toList)) (ptag (("0X").toList)))
        ('1' :: List.replicate n '_') = some ('1' :: List.replicate n '_', none) := by
      rfl
    have hfil : ∀ m, (List.replicate m '_').filter (fun c => c ≠ '_') = [] := by
      intro m
      induction m with
      | zero => rfl
      | succ k ihk => simp [List.replicate_succ, List.filter_cons, ihk]
    simp only [hexadecimal_value, map_res, preceded, hpre, hrec]
    rw [show ('1' :: List.replicate n '_').filter (fun c => c ≠ '_') = ['1'] by
      simp [List.filter_cons, hfil n]]
    rfl
  · rfl

/-! ## C3: range of the hex primitive on pure digit strings -/

theorem hex_elem_step {c : Char} {cs : List Char} (hc : c ∈ hexDigitChars)
    (hcs : ∀ x ∈ cs, x ∈ hexDigitChars) :
    terminated (one_of hexDigitChars) (many0 (pchar '_')) (c :: cs) = some (cs, c) := by
  have hpc : pchar '_' cs = none := by
    cases cs with
    | nil => rfl
    | cons x xs =>
        have hx : x ∈ hexDigitChars := hcs x (by simp)
        have hxe : x ≠ '_' := fun he => by rw [he] at hx; revert hx; decide
        simp [pchar, hxe]
  have hone : one_of hexDigitChars (c :: cs) = some (cs, c) := by
    simp [one_of, hc]
  have hm0 : many0 (pchar '_') cs = some (cs, []) := by
    simp only [many0, many0Aux, hpc]
  simp only [terminated, hone, hm0]

theorem hexRun_many0Aux {fuel : Nat} :
    ∀ {s : List Char}, (∀ c ∈ s, c ∈ hexDigitChars) → s.length < fuel →
      many0Aux (terminated (one_of hexDigitChars) (many0 (pchar '_'))) fuel s
        = some ([], s) := by
  induction fuel with
  | zero => intro s _ h; omega
  | succ f ih =>
      intro s hs hlen
      cases s with
      | nil => rfl
      | cons c cs =>
          have hc : c ∈ hexDigitChars := hs c (by simp)
          have hcs : ∀ x ∈ cs, x ∈ hexDigitChars := fun x hx => hs x (by simp [hx])
          simp only [many0Aux, hex_elem_step hc hcs, List.length_cons, Nat.lt_succ_self,
            if_pos, ih hcs (by simpa using Nat.lt_of_succ_lt_succ hlen)]

theorem hexRun_many1 {s : List Char} (hne : s ≠ []) (hs : ∀ c ∈ s, c ∈ hexDigitChars) :
    many1 (terminated (one_of hexDigitChars) (many0 (pchar '_'))) s
      = some ([], s.head?.toList ++ s.tail) := by
  cases s with
  | nil => exact absurd rfl hne
  | cons c cs =>
      have hc : c ∈ hexDigitChars := hs c (by simp)
      have hcs : ∀ x ∈ cs, x ∈ hexDigitChars := fun x hx => hs x (by simp [hx])
      simp only [many1, hex_elem_step hc hcs,
        hexRun_many0Aux hcs (Nat.lt_succ_self _), Option.toList_some, List.head?_cons,
        List.tail_cons, List.singleton_append]

theorem ptag_0x_none {s : List Char} (hs : ∀ c ∈ s, c ∈ hexDigitChars) :
    ptag (("0x").toList) s = none ∧ ptag (("0X").toList) s = none := by
  cases s with
  | nil => exact ⟨rfl, rfl⟩
  | cons c cs =>
      cases cs with
      | nil =>
          constructor <;> · show ptag _ _ = none; simp [ptag]
      | cons c2 cs2 =>
          have h2 : c2 ∈ hexDigitChars := hs c2 (by simp)
          have hx : c2 ≠ 'x' := fun he => by rw [he] at h2; revert h2; decide
          have hX : c2 ≠ 'X' := fun he => by rw [he] at h2; revert h2; decide
          constructor <;> · show ptag _ _ = none; simp [ptag, hx, hX]

theorem hex_digits_filter {s : List Char} (hs : ∀ c ∈ s, c ∈ hexDigitChars) :
    s.filter (fun c => c ≠ '_') = s := by
  refine List.filter_eq_self.mpr (fun a ha => ?_)
  have hmem := hs a ha
  have hne : a ≠ '_' := fun he => by rw [he] at hmem; revert hmem; decide
  simp [hne]

/-- C3 counterexample: the 16-digit hex string `8000000000000000` has
magnitude `2^63 < 2^64`, yet the primitive fails on it (the claim says every
hex digit string with value below `2^64` succeeds). -/
theorem c3_counterexample :
    hexadecimal_value (("8000000000000000").toList) = none
    ∧ hexNatValue (("8000000000000000").toList) < 2 ^ 64 :=
  ⟨rfl, by decide⟩

/-- C3 (amended): on a nonempty string of hex digits the primitive succeeds
with the string's base-16 value exactly when that value is at most
`i64::MAX = 2^63 - 1`; at `2^63` and above (still within 64 unsigned bits)
it fails, because the conversion targets a signed 64-bit integer. -/
theorem c3_hex_range (s : List Char) (h1 : s ≠ []) (h2 : ∀ c ∈ s, c ∈ hexDigitChars) :
    hexadecimal_value s =
      if hexNatValue s < 2 ^ 63 then some ([], Int.ofNat (hexNatValue s)) else none := by
  have hpre : popt (alt2 (ptag (("0x").toList)) (ptag (("0X").toList))) s = some (s, none) := by
    have h0x := (ptag_0x_none h2).1
    have h0X := (ptag_0x_none h2).2
    simp only [popt, alt2, h0x, h0X]
  have hheadtail : s.head?.toList ++ s.tail = s := by
    cases s with
    | nil => exact absurd rfl h1
    | cons c cs => simp
  have hrec : recognize (many1 (terminated (one_of hexDigitChars) (many0 (pchar '_')))) s
      = some ([], s) := by
    simp [recognize, hexRun_many1 h1 h2, hheadtail, List.take_length]
  have hall : s.all isHexDigitChar = true :=
    List.all_eq_true.mpr (fun c hc => by simp [isHexDigitChar, h2 c hc])
  simp only [hexadecimal_value, map_res, preceded, hpre, hrec, hex_digits_filter h2,
    i64FromStrRadix16, if_neg h1, hall, if_true]
  split_ifs with hlt <;> rfl

/-- C3 witness: the amended range law evaluated at the concrete digit string
`"1f"`, giving value 31. -/
theorem c3_hex_range_witness :
    hexadecimal_value (("1f").toList) =
      if hexNatValue (("1f").toList) < 2 ^ 63
      then some ([], Int.ofNat (hexNatValue (("1f").toList))) else none :=
  c3_hex_range _ (by decide) (by decide)

/-! ## C5: which fixed-width map fields are actually validated -/

theorem space1_cons_not_space {a : Char} (ha : (a = ' ' || a = '\t') = false) (l : List Char) :
    space1 (' ' :: a :: l) = some (a :: l, [' ']) := by
  simp [space1, take_while1, List.takeWhile_cons, List.dropWhile_cons, ha]

/-- C5 counterexample: a permission field of `"!!!!"` — characters outside the
permission character class — still parses as a record (the claim says it must
fail). -/
theorem c5_counterexample :
    (parse_mapped_library (("00000001-00000004 !!!! 00000000 103:02 5000 /x").toList)).isSome
      = true := by rfl

/-- C5 (amended): the permission field is validated only for its width, not
its character class: any four characters parse there, as long as the first is
not space or tab (greedy whitespace handling would otherwise shift the
field). The offset field, by contrast, is checked to be exactly 8 hex digits
and rejects other characters. -/
theorem c5_perm_width_only :
    (∀ a b c d : Char, (a = ' ' || a = '\t') = false →
      parse_mapped_library (c5permPre ++ a :: b :: c :: d :: c5permPost)
        = some ([], { first := 1, last := 4, path := ['/', 'x'] }))
    ∧ parse_mapped_library c5badOffsetLine = none := by
  constructor
  · intro a b c d ha
    have h4 : preceded space1 (many_m_n_exact anychar 4)
        (' ' :: a :: b :: c :: d :: c5permPost) = some (c5permPost, [a, b, c, d]) := by
      simp only [preceded, space1_cons_not_space ha]
      rfl
    simp only [parse_mapped_library]
    rw [show hexadecimal_value (c5permPre ++ a :: b :: c :: d :: c5permPost)
        = some ((("-00000004 ").toList) ++ a :: b :: c :: d :: c5permPost, (1 : Int)) from rfl]
    simp only [bindSome]
    rw [show ptag (("-").toList) ((("-00000004 ").toList) ++ a :: b :: c :: d :: c5permPost)
        = some ((("00000004 ").toList) ++ a :: b :: c :: d :: c5permPost, ("-").toList) from rfl]
    simp only [bindSome]
    rw [show hexadecimal_value ((("00000004 ").toList) ++ a :: b :: c :: d :: c5permPost)
        = some (' ' :: a :: b :: c :: d :: c5permPost, (4 : Int)) from rfl]
    simp only [bindSome]
    rw [h4]
    simp only [bindSome]
    rfl
  · rfl

/-- C5 witness: the width-only law instantiated at the out-of-class
permission field `"!!!!"`. -/
theorem c5_perm_width_only_witness :
    parse_mapped_library (c5permPre ++ '!' :: '!' :: '!' :: '!' :: c5permPost)
      = some ([], { first := 1, last := 4, path := ['/', 'x'] }) :=
  c5_perm_width_only.1 '!' '!' '!' '!' (by decide)

/-! ## C8: the magic-prefix check -/

/-- C8: any input that does not start with the magic token `heap_v2` makes
`Profile::parse` fail with the UnsupportedFormat error, before any structural
grammar is attempted. -/
theorem c8_unsupported (input : List Char)
    (h : listBeginsWith (("heap_v2").toList) input = false) :
    Profile.parse input = Except.error ProfileError.unsupportedFormat := by
  unfold Profile.parse
  rw [h]
  rfl

/-- C8 witness: the magic check rejecting a gperftools-style prefix. -/
theorem c8_unsupported_witness :
    Profile.parse (("gperftools").toList) = Except.error ProfileError.unsupportedFormat :=
  c8_unsupported _ (by rfl)

/-! ## C1: is a parse ever partial? -/

theorem ptag_eq : ∀ {t i r o : List Char}, ptag t i = some (r, o) → i = t ++ r ∧ o = t := by
  intro t
  induction t with
  | nil =>
      intro i r o h
      simp only [ptag] at h
      obtain ⟨h1, h2⟩ := Prod.mk.injEq _ _ _ _ ▸ Option.some.injEq _ _ ▸ h
      exact ⟨h1 ▸ (List.nil_append _).symm ▸ rfl, h2.symm⟩
  | cons c cs ih =>
      intro i r o h
      cases i with
      | nil => exact absurd h (by simp [ptag])
      | cons x xs =>
          simp only [ptag] at h
          by_cases hx : x = c
          · rw [if_pos hx] at h
            cases hp : ptag cs xs with
            | none => rw [hp] at h; exact absurd h (by simp)
            | some pr =>
                obtain ⟨r2, o2⟩ := pr
                rw [hp] at h
                obtain ⟨h1, h2⟩ := Prod.mk.injEq _ _ _ _ ▸ Option.some.injEq _ _ ▸ h
                obtain ⟨hi, ho⟩ := ih hp
                subst hx
                refine ⟨?_, ?_⟩
                · rw [List.cons_append, ← h1, hi]
                · rw [← h2, ho]
          · rw [if_neg hx] at h; exact absurd h (by simp)

/-- C1 counterexample: in `d1doc` the line `"garbage"` inside the
mapped-library section fails the row sub-grammar, yet `Profile::parse`
succeeds — the claim that any malformed section line aborts the whole parse
is false. -/
theorem c1_counterexample :
    parse_mapped_library (("garbage").toList) = none
    ∧ (Profile.parse d1doc).isOk = true := ⟨rfl, rfl⟩

/-- C1 (amended): a malformed line in the totals or stack sections still
aborts the parse (those sections are followed by mandatory markers), but the
mapped-library section is merely terminated by its first malformed line:
whenever the structural grammar succeeds on a prefix of the document,
`Profile::parse` returns that profile and silently ignores the unconsumed
remainder, so a Profile built from only the well-formed prefix of the
mapped-library section is possible. -/
theorem c1_partial_map_section (input rest : List Char) (p : Profile)
    (h : parse_profile input = some (rest, p)) : Profile.parse input = Except.ok p := by
  have hmagic : ∃ i0, input = (("heap_v2/").toList) ++ i0 := by
    have h' := h
    simp only [parse_profile] at h'
    obtain ⟨⟨i1, r⟩, h1, _⟩ := bind_some_decomp h'
    simp only [parse_header] at h1
    obtain ⟨⟨i0, t⟩, htag, _⟩ := bind_some_decomp h1
    exact ⟨i0, (ptag_eq htag).1⟩
  obtain ⟨i0, hi⟩ := hmagic
  subst hi
  unfold Profile.parse
  rw [h]
  rfl

/-- C1 witness: the amended law at `d1doc`, whose mapped-library section has
a malformed second line: the parse succeeds with the one well-formed row and
leaves `"garbage\n"` unconsumed. -/
theorem c1_partial_map_section_witness : Profile.parse d1doc = Except.ok d1prof :=
  c1_partial_map_section d1doc d1rest d1prof (by rfl)

/-! ## Consumption lemmas -/

theorem consumes_take_while1 {pred : Char → Bool} : Consumes (take_while1 pred) := by
  intro i r a h
  obtain ⟨-, hr, -⟩ := take_while1_spec h
  subst hr
  exact ⟨i.takeWhile pred, List.takeWhile_append_dropWhile ..⟩

theorem consumes_digit1 : Consumes digit1 := consumes_take_while1

theorem consumes_space1 : Consumes space1 := consumes_take_while1

theorem consumes_ptag (t : List Char) : Consumes (ptag t) :=
  fun _ _ _ h => ⟨t, ((ptag_eq h).1).symm⟩

theorem consumes_pchar (c : Char) : Consumes (pchar c) := by
  intro i r a h
  cases i with
  | nil => exact absurd h (by simp [pchar])
  | cons x xs =>
      simp only [pchar] at h
      by_cases hx : x = c
      · rw [if_pos hx] at h
        obtain ⟨h1, -⟩ := Prod.mk.injEq _ _ _ _ ▸ Option.some.injEq _ _ ▸ h
        exact h1 ▸ ⟨[x], rfl⟩
      · rw [if_neg hx] at h; exact absurd h (by simp)

theorem consumes_one_of (s : List Char) : Consumes (one_of s) := by
  intro i r a h
  cases i with
  | nil => exact absurd h (by simp [one_of])
  | cons x xs =>
      simp only [one_of] at h
      by_cases hx : x ∈ s
      · rw [if_pos hx] at h
        obtain ⟨h1, -⟩ := Prod.mk.injEq _ _ _ _ ▸ Option.some.injEq _ _ ▸ h
        exact h1 ▸ ⟨[x], rfl⟩
      · rw [if_neg hx] at h; exact absurd h (by simp)

theorem consumes_anychar : Consumes anychar := by
  intro i r a h
  cases i with
  | nil => exact absurd h (by simp [anychar])
  | cons x xs =>
      simp only [anychar] at h
      obtain ⟨h1, -⟩ := Prod.mk.injEq _ _ _ _ ▸ Option.some.injEq _ _ ▸ h
      exact h1 ▸ ⟨[x], rfl⟩

theorem consumes_popt {p : ParserFn α} (hp : Consumes p) : Consumes (popt p) := by
  intro i r a h
  simp only [popt] at h
  cases hpi : p i with
  | none =>
      rw [hpi] at h
      obtain ⟨h1, -⟩ := Prod.mk.injEq _ _ _ _ ▸ Option.some.injEq _ _ ▸ h
      exact h1 ▸ List.suffix_refl i
  | some pr =>
      obtain ⟨r1, a1⟩ := pr
      rw [hpi] at h
      obtain ⟨h1, -⟩ := Prod.mk.injEq _ _ _ _ ▸ Option.some.injEq _ _ ▸ h
      exact h1 ▸ hp i r1 a1 hpi

theorem consumes_alt2 {p q : ParserFn α} (hp : Consumes p) (hq : Consumes q) :
    Consumes (alt2 p q) := by
  intro i r a h
  simp only [alt2] at h
  cases hpi : p i with
  | none => rw [hpi] at h; exact hq i r a h
  | some pr =>
      obtain ⟨r1, a1⟩ := pr
      rw [hpi] at h
      obtain ⟨h1, h2⟩ := Prod.mk.injEq _ _ _ _ ▸ Option.some.injEq _ _ ▸ h
      exact h1 ▸ hp i r1 a1 hpi

theorem consumes_preceded {p : ParserFn α} {q : ParserFn β} (hp : Consumes p)
    (hq : Consumes q) : Consumes (preceded p q) := by
  intro i r a h
  simp only [preceded] at h
  cases hpi : p i with
  | none => rw [hpi] at h; exact absurd h (by simp)
  | some pr =>
      obtain ⟨r1, a1⟩ := pr
      rw [hpi] at h
      exact (hq r1 r a h).trans (hp i r1 a1 hpi)

theorem consumes_terminated {p : ParserFn α} {q : ParserFn β} (hp : Consumes p)
    (hq : Consumes q) : Consumes (terminated p q) := by
  intro i r a h
  simp only [terminated] at h
  split at h
  · exact absurd h (by simp)
  · rename_i r1 a1 hpi
    split at h
    · exact absurd h (by simp)
    · rename_i r2 a2 hqi
      obtain ⟨h1, -⟩ := Prod.mk.injEq _ _ _ _ ▸ Option.some.injEq _ _ ▸ h
      exact h1 ▸ (hq r1 r2 a2 hqi).trans (hp i r1 a1 hpi)

theorem consumes_map_res {p : ParserFn α} {f : α → Option β} (hp : Consumes p) :
    Consumes (map_res p f) := by
  intro i r a h
  simp only [map_res] at h
  split at h
  · exact absurd h (by simp)
  · rename_i r1 a1 hpi
    split at h
    · exact absurd h (by simp)
    · rename_i b hfa
      obtain ⟨h1, -⟩ := Prod.mk.injEq _ _ _ _ ▸ Option.some.injEq _ _ ▸ h
      exact h1 ▸ hp i r1 a1 hpi

theorem consumes_recognize {p : ParserFn α} (hp : Consumes p) : Consumes (recognize p) := by
  intro i r a h
  simp only [recognize] at h
  split at h
  · exact absurd h (by simp)
  · rename_i r1 a1 hpi
    obtain ⟨h1, -⟩ := Prod.mk.injEq _ _ _ _ ▸ Option.some.injEq _ _ ▸ h
    exact h1 ▸ hp i r1 a1 hpi

theorem consumes_many0Aux {p : ParserFn α} (hp : Consumes p) :
    ∀ fuel, Consumes (many0Aux p fuel) := by
  intro fuel
  induction fuel with
  | zero => intro i r a h; exact absurd h (by simp [many0Aux])
  | succ f ih =>
      intro i r a h
      simp only [many0Aux] at h
      split at h
      · obtain ⟨h1, -⟩ := Prod.mk.injEq _ _ _ _ ▸ Option.some.injEq _ _ ▸ h
        exact h1 ▸ List.suffix_refl i
      · rename_i r1 a1 hpi
        split at h
        · split at h
          · rename_i r2 as hm
            obtain ⟨h1, -⟩ := Prod.mk.injEq _ _ _ _ ▸ Option.some.injEq _ _ ▸ h
            exact h1 ▸ (ih r1 r2 as hm).trans (hp i r1 a1 hpi)
          · exact absurd h (by simp)
        · exact absurd h (by simp)

theorem consumes_many0 {p : ParserFn α} (hp : Consumes p) : Consumes (many0 p) :=
  fun i r a h => consumes_many0Aux hp (i.length + 1) i r a h

theorem consumes_many1 {p : ParserFn α} (hp : Consumes p) : Consumes (many1 p) := by
  intro i r a h
  simp only [many1] at h
  split at h
  · exact absurd h (by simp)
  · rename_i r1 a1 hpi
    split at h
    · rename_i r2 as hm
      obtain ⟨h1, -⟩ := Prod.mk.injEq _ _ _ _ ▸ Option.some.injEq _ _ ▸ h
      exact h1 ▸ (consumes_many0Aux hp _ r1 r2 as hm).trans (hp i r1 a1 hpi)
    · exact absurd h (by simp)

theorem consumes_many_m_n_exact {p : ParserFn α} (hp : Consumes p) :
    ∀ n, Consumes (many_m_n_exact p n) := by
  intro n
  induction n with
  | zero =>
      intro i r a h
      simp only [many_m_n_exact] at h
      obtain ⟨h1, -⟩ := Prod.mk.injEq _ _ _ _ ▸ Option.some.injEq _ _ ▸ h
      exact h1 ▸ List.suffix_refl i
  | succ k ih =>
      intro i r a h
      simp only [many_m_n_exact] at h
      split at h
      · exact absurd h (by simp)
      · rename_i r1 a1 hpi
        split at h
        · split at h
          · rename_i r2 as hm
            obtain ⟨h1, -⟩ := Prod.mk.injEq _ _ _ _ ▸ Option.some.injEq _ _ ▸ h
            exact h1 ▸ (ih r1 r2 as hm).trans (hp i r1 a1 hpi)
          · exact absurd h (by simp)
        · exact absurd h (by simp)

theorem consumes_hexadecimal_value : Consumes hexadecimal_value :=
  consumes_map_res (consumes_preceded
    (consumes_popt (consumes_alt2 (consumes_ptag _) (consumes_ptag _)))
    (consumes_recognize (consumes_many1
      (consumes_terminated (consumes_one_of _) (consumes_many0 (consumes_pchar _))))))

/-! ## Structure of a successfully parsed map row -/

theorem dropWhile_head_false {pred : Char → Bool} :
    ∀ {l : List Char} {c : Char} {cs : List Char},
      l.dropWhile pred = c :: cs → pred c = false := by
  intro l
  induction l with
  | nil => intro c cs h; exact absurd h (by simp)
  | cons x xs ih =>
      intro c cs h
      rw [List.dropWhile_cons] at h
      by_cases hx : pred x
      · rw [if_pos hx] at h; exact ih h
      · rw [if_neg hx] at h
        cases h
        simpa using hx

theorem not_line_ending_spec {i r out : List Char} (h : not_line_ending i = some (r, out)) :
    out ++ r = i ∧ (∀ c ∈ out, c ≠ '\n' ∧ c ≠ '\r')
    ∧ (r = [] ∨ (∃ t, r = '\n' :: t) ∨ (∃ t, r = '\r' :: '\n' :: t)) := by
  simp only [not_line_ending] at h
  have hout : ∀ (r2 out2 : List Char),
      some (i.dropWhile notEol, i.takeWhile notEol) = some (r2, out2) →
      out2 ++ r2 = i ∧ (∀ c ∈ out2, c ≠ '\n' ∧ c ≠ '\r') := by
    intro r2 out2 heq
    obtain ⟨e1, e2⟩ := Prod.mk.injEq _ _ _ _ ▸ Option.some.injEq _ _ ▸ heq
    subst e1; subst e2
    refine ⟨List.takeWhile_append_dropWhile .., fun c hc => ?_⟩
    have := List.mem_takeWhile_imp hc
    simpa [notEol] using this
  split at h
  · rename_i hdrop
    obtain ⟨h1, h2⟩ := hout r out h
    have hr : r = i.dropWhile notEol :=
      ((Prod.mk.injEq _ _ _ _ ▸ Option.some.injEq _ _ ▸ h).1).symm
    exact ⟨h1, h2, Or.inl (by rw [hr, hdrop])⟩
  · rename_i c cs hdrop
    split at h
    · rename_i hcr
      split at h
      · exact absurd h (by simp)
      · rename_i c2 t2
        split at h
        · rename_i hnl
          obtain ⟨h1, h2⟩ := hout r out h
          refine ⟨h1, h2, Or.inr (Or.inr ⟨t2, ?_⟩)⟩
          have hr : r = i.dropWhile notEol :=
            ((Prod.mk.injEq _ _ _ _ ▸ Option.some.injEq _ _ ▸ h).1).symm
          rw [hr, hdrop, hcr, hnl]
        · exact absurd h (by simp)
    · rename_i hcr
      obtain ⟨h1, h2⟩ := hout r out h
      have hcn : c = '\n' := by
        by_contra hne
        have hfls := dropWhile_head_false hdrop
        simp [notEol, hne, hcr] at hfls
      have hr : r = i.dropWhile notEol :=
        ((Prod.mk.injEq _ _ _ _ ▸ Option.some.injEq _ _ ▸ h).1).symm
      exact ⟨h1, h2, Or.inr (Or.inl ⟨cs, by rw [hr, hdrop, hcn]⟩)⟩

theorem terminated_inner {p : ParserFn α} {q : ParserFn β} {i r : List Char} {a : α}
    (h : terminated p q i = some (r, a)) : ∃ r1, p i = some (r1, a) := by
  simp only [terminated] at h
  split at h
  · exact absurd h (by simp)
  · rename_i r1 a1 hpi
    split at h
    · exact absurd h (by simp)
    · rename_i r2 a2 hqi
      obtain ⟨-, h2⟩ := Prod.mk.injEq _ _ _ _ ▸ Option.some.injEq _ _ ▸ h
      exact ⟨r1, h2 ▸ hpi⟩

theorem many0Aux_mem {p : ParserFn α} :
    ∀ {fuel : Nat} {i r : List Char} {as : List α}, many0Aux p fuel i = some (r, as) →
      ∀ a ∈ as, ∃ i2 r2, p i2 = some (r2, a) := by
  intro fuel
  induction fuel with
  | zero => intro i r as h; exact absurd h (by simp [many0Aux])
  | succ f ih =>
      intro i r as h
      simp only [many0Aux] at h
      split at h
      · obtain ⟨-, h2⟩ := Prod.mk.injEq _ _ _ _ ▸ Option.some.injEq _ _ ▸ h
        intro a ha
        rw [← h2] at ha
        exact absurd ha (by simp)
      · rename_i r1 a1 hpi
        split at h
        · split at h
          · rename_i r2 as2 hm
            obtain ⟨-, h2⟩ := Prod.mk.injEq _ _ _ _ ▸ Option.some.injEq _ _ ▸ h
            intro a ha
            rw [← h2] at ha
            rcases List.mem_cons.mp ha with rfl | ha2
            · exact ⟨i, r1, hpi⟩
            · exact ih hm a ha2
          · exact absurd h (by simp)
        · exact absurd h (by simp)

/-- A successfully parsed map row splits its input as
`pre ++ spaces ++ path ++ rest`: at least one whitespace character stands
right before the path, the path holds no line terminator, and the rest is
empty or begins with one. -/
theorem parse_mapped_library_split {input rest : List Char} {lib : MappedLibrary}
    (h : parse_mapped_library input = some (rest, lib)) :
    ∃ pre sp, sp ≠ [] ∧ (∀ c ∈ sp, (c = ' ' || c = '\t') = true)
      ∧ pre ++ sp ++ lib.path ++ rest = input
      ∧ (∀ c ∈ lib.path, c ≠ '\n' ∧ c ≠ '\r')
      ∧ (rest = [] ∨ (∃ t, rest = '\n' :: t) ∨ (∃ t, rest = '\r' :: '\n' :: t)) := by
  simp only [parse_mapped_library] at h
  obtain ⟨⟨i1, v1⟩, h1, h⟩ := bind_some_decomp h
  obtain ⟨⟨i2, v2⟩, h2, h⟩ := bind_some_decomp h
  obtain ⟨⟨i3, v3⟩, h3, h⟩ := bind_some_decomp h
  obtain ⟨⟨i4, v4⟩, h4, h⟩ := bind_some_decomp h
  obtain ⟨⟨i5, v5⟩, h5, h⟩ := bind_some_decomp h
  obtain ⟨⟨i6, v6⟩, h6, h⟩ := bind_some_decomp h
  obtain ⟨⟨i7, v7⟩, h7, h⟩ := bind_some_decomp h
  obtain ⟨⟨i8, v8⟩, h8, h⟩ := bind_some_decomp h
  obtain ⟨⟨i9, v9⟩, h9, h⟩ := bind_some_decomp h
  obtain ⟨⟨i10, path10⟩, h10, h⟩ := bind_some_decomp h
  obtain ⟨hrest, hlib⟩ := Prod.mk.injEq _ _ _ _ ▸ Option.some.injEq _ _ ▸ h
  have s1 := consumes_hexadecimal_value input i1 v1 h1
  have s2 := consumes_ptag _ i1 i2 v2 h2
  have s3 := consumes_hexadecimal_value i2 i3 v3 h3
  have s4 := consumes_preceded consumes_space1
    (consumes_many_m_n_exact consumes_anychar 4) i3 i4 v4 h4
  have s5 := consumes_preceded consumes_space1
    (consumes_many_m_n_exact (consumes_one_of _) 8) i4 i5 v5 h5
  have s6 := consumes_preceded consumes_space1 consumes_digit1 i5 i6 v6 h6
  have s7 := consumes_ptag _ i6 i7 v7 h7
  have s8 := consumes_digit1 i7 i8 v8 h8
  have s9 := consumes_preceded consumes_space1 consumes_digit1 i8 i9 v9 h9
  have hsuf : i9 <:+ input :=
    ((((((((s9.trans s8).trans s7).trans s6).trans s5).trans s4).trans s3).trans s2).trans s1)
  obtain ⟨pre0, hpre0⟩ := hsuf
  simp only [preceded] at h10
  split at h10
  · exact absurd h10 (by simp)
  · rename_i i9a spv hsp
    obtain ⟨hspv, hi9a, hspne⟩ := take_while1_spec hsp
    obtain ⟨hnl1, hnl2, hnl3⟩ := not_line_ending_spec h10
    refine ⟨pre0, spv, hspne, ?_, ?_, ?_, ?_⟩
    · intro c hc
      rw [hspv] at hc
      have hmem := List.mem_takeWhile_imp hc
      exact hmem
    · have hi9 : spv ++ i9a = i9 := by
        rw [hspv, hi9a]; exact List.takeWhile_append_dropWhile ..
      have hlp : lib.path = path10 := by rw [← hlib]
      have hre : rest = i10 := by rw [← hrest]
      rw [hlp, hre, ← hpre0, ← hi9, ← hnl1]
      simp [List.append_assoc]
    · intro c hc
      have hlp : lib.path = path10 := by rw [← hlib]
      rw [hlp] at hc
      exact hnl2 c hc
    · have hre : rest = i10 := by rw [← hrest]
      rw [hre]
      exact hnl3

/-! ## C6: paths in the final profile -/

/-- C6: in every successfully parsed document, no mapped-library entry has an
empty path and no path contains a line terminator; and every successfully
parsed map row takes as its path the full remainder of the line — the input
splits as `pre ++ path ++ rest` with `rest` empty or starting at the line
terminator, so nothing between the last field separator and the terminator is
dropped (paths with embedded spaces included). -/
theorem c6_paths :
    (∀ input rest p, parse_profile input = some (rest, p) →
      ∀ lib ∈ p.mapped_libraries, lib.path ≠ [] ∧ ∀ c ∈ lib.path, c ≠ '\n' ∧ c ≠ '\r')
    ∧ (∀ input rest lib, parse_mapped_library input = some (rest, lib) →
      ∃ pre, pre ++ lib.path ++ rest = input
        ∧ (rest = [] ∨ (∃ t, rest = '\n' :: t) ∨ (∃ t, rest = '\r' :: '\n' :: t))) := by
  constructor
  · intro input rest p h
    simp only [parse_profile] at h
    obtain ⟨⟨i1, v1⟩, h1, h⟩ := bind_some_decomp h
    obtain ⟨⟨i2, v2⟩, h2, h⟩ := bind_some_decomp h
    obtain ⟨⟨i3, v3⟩, h3, h⟩ := bind_some_decomp h
    obtain ⟨⟨i4, v4⟩, h4, h⟩ := bind_some_decomp h
    obtain ⟨⟨i5, v5⟩, h5, h⟩ := bind_some_decomp h
    obtain ⟨⟨i6, v6⟩, h6, h⟩ := bind_some_decomp h
    obtain ⟨⟨i7, libs⟩, h7, h⟩ := bind_some_decomp h
    have hml : p.mapped_libraries = libs.filter (fun l => !l.path.isEmpty) := by
      have hinj := Option.some.inj h
      have hsnd := congrArg Prod.snd hinj
      exact (congrArg Profile.mapped_libraries hsnd).symm
    intro lib hmem
    rw [hml] at hmem
    have hmem2 : lib ∈ libs.filter (fun l => !l.path.isEmpty) := hmem
    obtain ⟨hmem3, hne⟩ := List.mem_filter.mp hmem2
    simp only [many0] at h7
    obtain ⟨iL, rL, hL⟩ := many0Aux_mem h7 lib hmem3
    obtain ⟨rM, hM⟩ := terminated_inner hL
    obtain ⟨-, -, -, -, -, hpath, -⟩ := parse_mapped_library_split hM
    refine ⟨?_, hpath⟩
    simpa using hne
  · intro input rest lib h
    obtain ⟨pre, sp, -, -, heq, -, hshape⟩ := parse_mapped_library_split h
    refine ⟨pre ++ sp, ?_, hshape⟩
    simpa [List.append_assoc] using heq

/-- C6 witness: the profile-level path law at the document `c6doc`, whose one
map row carries a path with an embedded space. -/
theorem c6_paths_witness :
    ∀ lib ∈ c6prof.mapped_libraries, lib.path ≠ [] ∧ ∀ c ∈ lib.path, c ≠ '\n' ∧ c ≠ '\r' :=
  c6_paths.1 c6doc [] c6prof (by rfl)

/-! ## C10: a map line ending right after the inode -/

/-- C10: every successfully parsed map row has at least one whitespace
character immediately before the path, so a memory-map line ending right
after the inode (anonymous mapping, no trailing spaces) does not parse as a
row at all; at the profile level such a line ends the mapped-library section,
leaving only the preceding rows, rather than becoming an entry with an empty
path. -/
theorem c10_anon_mapping :
    (∀ input rest lib, parse_mapped_library input = some (rest, lib) →
      ∃ pre sp, sp ≠ [] ∧ (∀ c ∈ sp, (c = ' ' || c = '\t') = true)
        ∧ pre ++ sp ++ lib.path ++ rest = input)
    ∧ parse_mapped_library c10anonLine = none
    ∧ Profile.parse d10doc = Except.ok d10prof := by
  refine ⟨?_, rfl, rfl⟩
  intro input rest lib h
  obtain ⟨pre, sp, hne, hsp, heq, -, -⟩ := parse_mapped_library_split h
  exact ⟨pre, sp, hne, hsp, heq⟩

/-- C10 witness: the whitespace-before-path law at a concrete well-formed map
row. -/
theorem c10_anon_mapping_witness :
    ∃ pre sp, sp ≠ [] ∧ (∀ c ∈ sp, (c = ' ' || c = '\t') = true)
      ∧ pre ++ sp ++ ['/', 'x'] ++ [] =
        (("00000001-00000004 r--p 00000000 103:02 5000 /x").toList) :=
  c10_anon_mapping.1 (("00000001-00000004 r--p 00000000 103:02 5000 /x").toList) []
    { first := 1, last := 4, path := ['/', 'x'] } (by rfl)

/-! ## C7: every u64 sampling rate round-trips through a minimal document -/

theorem ptag_append : ∀ (t r : List Char), ptag t (t ++ r) = some (r, t) := by
  intro t
  induction t with
  | nil => intro r; rfl
  | cons c cs ih => intro r; simp [ptag, ih r]

theorem decDigitChar_spec {d : Nat} (hd : d < 10) :
    (decDigitChar d).isDigit = true ∧ (decDigitChar d).toNat - 48 = d := by
  interval_cases d <;> exact ⟨by decide, by decide⟩

theorem natToDigitsAux_digits :
    ∀ fuel n, ∀ c ∈ natToDigitsAux fuel n, c.isDigit = true := by
  intro fuel
  induction fuel with
  | zero => intro n c hc; exact absurd hc (by simp [natToDigitsAux])
  | succ f ih =>
      intro n c hc
      simp only [natToDigitsAux] at hc
      by_cases hn : n = 0
      · rw [if_pos hn] at hc; exact absurd hc (by simp)
      · rw [if_neg hn] at hc
        rcases List.mem_append.mp hc with h1 | h2
        · exact ih (n / 10) c h1
        · have hc2 : c = decDigitChar (n % 10) := by simpa using h2
          subst hc2
          exact (decDigitChar_spec (Nat.mod_lt n (by norm_num))).1

theorem decNatValue_append_digit (xs : List Char) (c : Char) :
    decNatValue (xs ++ [c]) = 10 * decNatValue xs + (c.toNat - ('0').toNat) := by
  simp [decNatValue, List.foldl_append]

theorem natToDigitsAux_value :
    ∀ fuel n, n ≤ fuel → decNatValue (natToDigitsAux fuel n) = n := by
  intro fuel
  induction fuel with
  | zero => intro n hn; interval_cases n; rfl
  | succ f ih =>
      intro n hn
      simp only [natToDigitsAux]
      by_cases hn0 : n = 0
      · rw [if_pos hn0, hn0]; rfl
      · rw [if_neg hn0, decNatValue_append_digit]
        have h10 : n / 10 ≤ f := by
          have h1 : n / 10 < n := Nat.div_lt_self (Nat.pos_of_ne_zero hn0) (by norm_num)
          omega
        rw [ih (n / 10) h10]
        have hd := (decDigitChar_spec (Nat.mod_lt n (by norm_num))).2
        rw [show ('0').toNat = 48 from rfl, hd]
        omega

theorem natToDigits_spec (n : Nat) :
    natToDigits n ≠ [] ∧ (∀ c ∈ natToDigits n, c.isDigit = true)
    ∧ decNatValue (natToDigits n) = n := by
  by_cases hn : n = 0
  · subst hn
    refine ⟨by decide, by decide, by decide⟩
  · simp only [natToDigits, if_neg hn]
    refine ⟨?_, natToDigitsAux_digits _ _, natToDigitsAux_value (n + 1) n (Nat.le_succ n)⟩
    simp only [natToDigitsAux, if_neg hn]
    simp

theorem takeWhile_append_all {pred : Char → Bool} :
    ∀ {l1 : List Char} (l2 : List Char), (∀ c ∈ l1, pred c = true) →
      (l1 ++ l2).takeWhile pred = l1 ++ l2.takeWhile pred := by
  intro l1
  induction l1 with
  | nil => intro l2 h; simp
  | cons x xs ih =>
      intro l2 h
      have hx : pred x = true := h x (by simp)
      simp [List.takeWhile_cons, hx, ih l2 (fun c hc => h c (by simp [hc]))]

theorem dropWhile_append_all {pred : Char → Bool} :
    ∀ {l1 : List Char} (l2 : List Char), (∀ c ∈ l1, pred c = true) →
      (l1 ++ l2).dropWhile pred = l2.dropWhile pred := by
  intro l1
  induction l1 with
  | nil => intro l2 h; simp
  | cons x xs ih =>
      intro l2 h
      have hx : pred x = true := h x (by simp)
      simp [List.dropWhile_cons, hx, ih l2 (fun c hc => h c (by simp [hc]))]

theorem digit1_append_nl {ds t : List Char} (hne : ds ≠ [])
    (hds : ∀ c ∈ ds, c.isDigit = true) :
    digit1 (ds ++ '\n' :: t) = some ('\n' :: t, ds) := by
  have htw : (ds ++ '\n' :: t).takeWhile Char.isDigit = ds := by
    rw [takeWhile_append_all _ hds]
    simp [List.takeWhile_cons]
  have hdw : (ds ++ '\n' :: t).dropWhile Char.isDigit = '\n' :: t := by
    rw [dropWhile_append_all _ hds]
    simp [List.dropWhile_cons]
  simp only [digit1, take_while1, htw, hdw]

theorem parse_u64_digits {ds t : List Char} (hne : ds ≠ [])
    (hds : ∀ c ∈ ds, c.isDigit = true) (hlt : decNatValue ds < 2 ^ 64) :
    parse_u64 (ds ++ '\n' :: t) = some ('\n' :: t, decNatValue ds) := by
  simp only [parse_u64, map_res, digit1_append_nl hne hds, u64OfDigits]
  rw [if_pos hlt]

theorem parse_header_c7 (R : Nat) (hR : R < 2 ^ 64) :
    parse_header (c7doc R) = some (c7tail, R) := by
  obtain ⟨hne, hdig, hval⟩ := natToDigits_spec R
  have htail : c7tail
      = '\n' :: (("  t*: 0: 0 [0: 0]\n@ 0x1\n  t*: 0: 0 [0: 0]\nMAPPED_LIBRARIES:\n").toList) :=
    rfl
  simp only [parse_header, c7doc, htail]
  rw [ptag_append]
  simp only [bindSome]
  rw [parse_u64_digits hne hdig (by rw [hval]; exact hR), hval]

theorem parse_profile_c7 (R : Nat) (hR : R < 2 ^ 64) :
    parse_profile (c7doc R) = some ([], c7prof R) := by
  simp only [parse_profile]
  rw [parse_header_c7 R hR]
  simp only [bindSome]
  rfl

/-- C7: for every unsigned 64-bit value `R`, the minimal well-formed heap_v2
document with sampling rate `R` parses successfully and the resulting profile
has `sampling_rate = R`. -/
theorem c7_sampling_rate (R : Nat) (hR : R < 2 ^ 64) :
    ∃ p, Profile.parse (c7doc R) = Except.ok p ∧ p.sampling_rate = R := by
  refine ⟨c7prof R, ?_, rfl⟩
  unfold Profile.parse
  rw [parse_profile_c7 R hR]
  rfl

/-- C7 witness: the round-trip law at the sampling rate 131072. -/
theorem c7_sampling_rate_witness :
    ∃ p, Profile.parse (c7doc 131072) = Except.ok p ∧ p.sampling_rate = 131072 :=
  c7_sampling_rate 131072 (by norm_num)
